import Mathlib

/-!
Shallow embedding of `src/_exercice_version_prof.py`, an audio-synthesis
module: time-point generation (`np.linspace`), waveform generators,
normalization, multi-channel merge/separate, and the float <-> PCM16
little-endian codec.  Sample values are modelled as rationals (exact real
arithmetic idealization of Python floats); byte buffers as `List ℕ` with
entries below 256; Python exceptions as the `PyError` type.
-/

namespace Audio

/-- Python-level exceptions that the numpy calls in the source can raise
(`TypeError` from `np.fromiter` / `np.linspace`, `ValueError` from
`np.frombuffer` / `np.max` on an empty array). -/
inductive PyError where
  | typeError
  | valueError
deriving DecidableEq, Repr

/-- `SAMPLING_FREQ = 44100` (line 13). -/
def SAMPLING_FREQ : ℚ := 44100

/-- `SAMPLE_WIDTH = 16` (line 14). -/
def SAMPLE_WIDTH : ℕ := 16

/-- `MAX_INT_SAMPLE_VALUE = 2**(SAMPLE_WIDTH-1) - 1 = 32767` (line 15). -/
def MAX_INT_SAMPLE_VALUE : ℤ := 2 ^ (SAMPLE_WIDTH - 1) - 1

/-- Length of the rows of `zip(*channels)`: Python's `zip` stops at the
shortest of its argument iterables (`zip()` with no arguments is empty). -/
def minLen : List (List ℚ) → ℕ
  | [] => 0
  | [c] => c.length
  | c :: cs => min c.length (minLen cs)

/-- The list of rows produced by `zip(*channels)`: row `j` is the tuple
`(channels[0][j], ..., channels[k-1][j])`, for `j` below the length of the
shortest channel (so the `getD` default is never reached). -/
def zipRows (channels : List (List ℚ)) : List (List ℚ) :=
  (List.range (minLen channels)).map (fun j => channels.map (fun ch => ch.getD j 0))

/-- `merge_channels` (lines 18-20):
`np.fromiter((sample for samples in zip(*channels) for sample in samples), float)`,
i.e. the concatenation of the rows of `zip(*channels)`. -/
def merge_channels (channels : List (List ℚ)) : List ℚ :=
  (zipRows channels).flatten

/-- Helper for `stride`: take the next element once the skip counter hits
zero, then reset the counter to `step - 1`. -/
def strideAux (step : ℕ) : ℕ → List ℚ → List ℚ
  | _, [] => []
  | 0, x :: xs => x :: strideAux step (step - 1) xs
  | k + 1, _ :: xs => strideAux step k xs

/-- The extended slice `l[::step]` of Python (`step ≥ 1`): every `step`-th
element starting from the head. -/
def stride (step : ℕ) (l : List ℚ) : List ℚ := strideAux step 0 l

/-- The slices `samples[i::num_channels]` for `i in range(num_channels)`,
the intended per-channel sequences written in the source's own comment on
line 23 (`[samples[i::num_channels] for i in range(num_channels)]`). -/
def separate_channels_commented (samples : List ℚ) (num_channels : ℕ) : List (List ℚ) :=
  (List.range num_channels).map (fun i => stride num_channels (samples.drop i))

/-- `separate_channels` (lines 22-24):
`np.fromiter((samples[i::num_channels] for i in range(num_channels)), float)`.
`np.fromiter` with dtype `float` coerces every yielded item to a float
scalar; the items here are the slice arrays, and converting an array to a
scalar succeeds only when the array has exactly one element (numpy raises
`TypeError: only size-1 arrays can be converted to Python scalars`
otherwise).  So the call returns the flat array of the single elements when
every slice has length one, and raises `TypeError` otherwise. -/
def separate_channels (samples : List ℚ) (num_channels : ℕ) : Except PyError (List ℚ) :=
  if (separate_channels_commented samples num_channels).all (fun s => s.length == 1) then
    .ok ((separate_channels_commented samples num_channels).map (fun s => s.headD 0))
  else .error .typeError

/-- `np.linspace(0, stop, n)`: `n` evenly spaced points from `0` to `stop`
inclusive (`[0]` when `n = 1`, `[]` when `n = 0`). -/
def linspace (stop : ℚ) (n : ℕ) : List ℚ :=
  if n = 1 then [0]
  else (List.range n).map (fun i : ℕ => stop * (i : ℚ) / ((n : ℚ) - 1))

/-- `generate_sample_time_points` (lines 26-29):
`np.linspace(0, duration, duration * SAMPLING_FREQ)`.  `np.linspace`
requires its point count to be an integer (a fractional count raises
`TypeError`, a negative one `ValueError`); the source passes
`duration * SAMPLING_FREQ` unrounded. -/
def generate_sample_time_points (duration : ℚ) : Except PyError (List ℚ) :=
  if (duration * SAMPLING_FREQ).den = 1 then
    if (duration * SAMPLING_FREQ).num < 0 then .error .valueError
    else .ok (linspace duration (duration * SAMPLING_FREQ).num.toNat)
  else .error .typeError

/-- `sine` (lines 31-40): `amplitude * np.sin(freq * 2 * np.pi * time_points)`
over the time points of the given duration. -/
noncomputable def sine (freq amplitude : ℝ) (duration : ℚ) : Except PyError (List ℝ) :=
  match generate_sample_time_points duration with
  | .error e => .error e
  | .ok time_points =>
      .ok (time_points.map (fun t : ℚ => amplitude * Real.sin (freq * (2 * Real.pi) * (t : ℝ))))

/-- `np.max` over a one-dimensional array: the maximum of the elements;
numpy raises `ValueError` on an empty array (zero-size reduction). -/
def npMax : List ℚ → Except PyError ℚ
  | [] => .error .valueError
  | x :: xs => .ok (xs.foldl max x)

/-- `normalize` (lines 66-75): `coeff = norm_target / max(abs(samples))`,
result `coeff * samples`.  When the peak is zero Python computes `0/0`
(NaN) or `t/0` (Inf) with only a runtime warning and returns the scaled
array; no exception is raised, which the rational model renders with the
`q / 0 = 0` convention. -/
def normalize (samples : List ℚ) (norm_target : ℚ) : Except PyError (List ℚ) :=
  match npMax (samples.map (fun x => |x|)) with
  | .error e => .error e
  | .ok max_sample => .ok (samples.map (fun x => (norm_target / max_sample) * x))

/-- `np.clip(x, lo, hi) = min(max(x, lo), hi)` applied elementwise. -/
def clip (x lo hi : ℚ) : ℚ := min (max x lo) hi

/-- Conversion of a float to an integer by C-cast semantics (`astype`):
truncation toward zero. -/
def truncToZero (q : ℚ) : ℤ := if 0 ≤ q then ⌊q⌋ else -⌊-q⌋

/-- Reduction of an integer into the signed 16-bit range by wraparound,
as `astype("<i2")` does for out-of-range values. -/
def toInt16 (i : ℤ) : ℤ := (i + 2 ^ 15) % 2 ^ 16 - 2 ^ 15

/-- The two little-endian bytes of a signed 16-bit integer, as laid out by
`tobytes()`. -/
def int16ToBytesLE (i : ℤ) : List ℕ :=
  [(i % 2 ^ 16).toNat % 256, (i % 2 ^ 16).toNat / 256]

/-- `convert_to_bytes` (lines 77-88): clip each sample to `[-1, 1]`, scale
by `MAX_INT_SAMPLE_VALUE`, truncate to a signed 16-bit integer
(`astype("<i2")`), and emit the integers as little-endian byte pairs. -/
def convert_to_bytes (samples : List ℚ) : List ℕ :=
  ((samples.map (fun x => clip x (-1) 1)).map
    (fun x => toInt16 (truncToZero (x * (MAX_INT_SAMPLE_VALUE : ℚ))))).map int16ToBytesLE
    |>.flatten

/-- `np.frombuffer(bytes, dtype="<i2")`: consecutive little-endian byte
pairs read as signed 16-bit integers (entries are bytes, so the `% 256`
is the identity on well-formed buffers). -/
def bytesToInt16s : List ℕ → List ℤ
  | b0 :: b1 :: rest =>
      (if b0 % 256 + 256 * (b1 % 256) < 2 ^ 15 then ((b0 % 256 + 256 * (b1 % 256) : ℕ) : ℤ)
       else ((b0 % 256 + 256 * (b1 % 256) : ℕ) : ℤ) - 2 ^ 16) :: bytesToInt16s rest
  | _ => []

/-- The value of the local variable `samples` in `convert_to_samples`
(lines 90-95): `np.frombuffer(bytes, "<i2").astype(float) / MAX_INT_SAMPLE_VALUE`.
`np.frombuffer` raises `ValueError` when the buffer length is not a
multiple of the two-byte item size. -/
def convert_to_samples_value (bs : List ℕ) : Except PyError (List ℚ) :=
  if bs.length % 2 = 0 then
    .ok ((bytesToInt16s bs).map (fun i => (i : ℚ) / (MAX_INT_SAMPLE_VALUE : ℚ)))
  else .error .valueError

/-- `convert_to_samples` (lines 90-95): the body computes the decoded
`samples` array but has no `return` statement, so the function returns
`None` (after propagating the `ValueError` of `np.frombuffer` on an
odd-length buffer). -/
def convert_to_samples (bs : List ℕ) : Except PyError (Option (List ℚ)) :=
  match convert_to_samples_value bs with
  | .error e => .error e
  | .ok _ => .ok none

/-! ### List infrastructure: indexing a flattened list of equal-length blocks -/

lemma flatten_getElem?_blocks (k : ℕ) (B : List (List ℚ)) :
    ∀ (j c : ℕ), (∀ b ∈ B, b.length = k) → c < k →
      B.flatten[j * k + c]? = B[j]?.bind (fun b => b[c]?) := by
  induction B with
  | nil => intro j c _ _; simp
  | cons b bs ih =>
      intro j c hlen hc
      have hb : b.length = k := hlen b (List.mem_cons_self b bs)
      cases j with
      | zero =>
          rw [Nat.zero_mul, Nat.zero_add, List.flatten_cons, List.getElem?_append,
            if_pos (hb ▸ hc)]
          simp
      | succ j =>
          have hidx : (j + 1) * k + c = b.length + (j * k + c) := by
            rw [hb]; ring
          rw [List.flatten_cons, hidx, List.getElem?_append_right (Nat.le_add_right _ _),
            Nat.add_sub_cancel_left]
          rw [ih j c (fun x hx => hlen x (List.mem_cons_of_mem b hx)) hc]
          simp

lemma flatten_length_blocks (k : ℕ) (B : List (List ℚ))
    (hlen : ∀ b ∈ B, b.length = k) : B.flatten.length = B.length * k := by
  induction B with
  | nil => simp
  | cons b bs ih =>
      have hb : b.length = k := hlen b (List.mem_cons_self b bs)
      rw [List.flatten_cons, List.length_append, hb,
        ih (fun x hx => hlen x (List.mem_cons_of_mem b hx)), List.length_cons]
      ring

/-! ### Properties of `minLen`, `zipRows` and `merge_channels` -/

lemma minLen_le : ∀ (channels : List (List ℚ)), ∀ ch ∈ channels, minLen channels ≤ ch.length
  | [] => by simp
  | [c] => by simp [minLen]
  | c :: c' :: cs => by
      intro ch hch
      rcases List.mem_cons.mp hch with h | h
      · subst h; exact min_le_left _ _
      · exact le_trans (min_le_right _ _) (minLen_le (c' :: cs) ch h)

lemma minLen_eq_of_const (n : ℕ) :
    ∀ (channels : List (List ℚ)), (∀ ch ∈ channels, ch.length = n) → channels ≠ [] →
      minLen channels = n
  | [] => by intro _ h; exact absurd rfl h
  | [c] => by
      intro hlen _
      exact hlen c (List.mem_singleton_self c)
  | c :: c' :: cs => by
      intro hlen _
      have hc : c.length = n := hlen c (List.mem_cons_self _ _)
      have htl : minLen (c' :: cs) = n :=
        minLen_eq_of_const n (c' :: cs)
          (fun ch hch => hlen ch (List.mem_cons_of_mem c hch)) (by simp)
      show min c.length (minLen (c' :: cs)) = n
      rw [hc, htl, min_self]

lemma zipRows_length (channels : List (List ℚ)) :
    (zipRows channels).length = minLen channels := by
  simp [zipRows]

lemma zipRows_mem_length (channels : List (List ℚ)) :
    ∀ r ∈ zipRows channels, r.length = channels.length := by
  intro r hr
  obtain ⟨j, _, rfl⟩ := List.mem_map.mp hr
  simp

lemma zipRows_getElem? (channels : List (List ℚ)) (j : ℕ) (hj : j < minLen channels) :
    (zipRows channels)[j]? = some (channels.map (fun ch => ch.getD j 0)) := by
  rw [zipRows, List.getElem?_map, List.getElem?_range hj]
  rfl

lemma merge_channels_length (channels : List (List ℚ)) :
    (merge_channels channels).length = channels.length * minLen channels := by
  rw [merge_channels, flatten_length_blocks channels.length _ (zipRows_mem_length channels),
    zipRows_length, Nat.mul_comm]

lemma merge_channels_getElem? (channels : List (List ℚ)) (c j : ℕ)
    (hc : c < channels.length) (hj : j < minLen channels) :
    (merge_channels channels)[j * channels.length + c]? = some ((channels.getD c []).getD j 0) := by
  rw [merge_channels,
    flatten_getElem?_blocks channels.length (zipRows channels) j c (zipRows_mem_length channels) hc,
    zipRows_getElem? channels j hj]
  simp [List.getElem?_eq_getElem hc, List.getD_eq_getElem channels [] hc]

lemma merge_channels_getD (channels : List (List ℚ)) (c j : ℕ)
    (hc : c < channels.length) (hj : j < minLen channels) :
    (merge_channels channels).getD (j * channels.length + c) 0
      = (channels.getD c []).getD j 0 := by
  rw [List.getD_eq_getElem?_getD, merge_channels_getElem? channels c j hc hj]
  rfl

/-! ### Claim theorems about `merge_channels` -/

/-- C5: for `k` equal-length channel sequences of length `n`, `merge_channels`
returns a single sequence of length `k*n` in frame-major interleaved order:
output index `j*k + c` holds `channels[c][j]`; in particular
`merge_channels [[1,2,3],[10,20,30]] = [1,10,2,20,3,30]`. -/
theorem merge_channels_interleaves (channels : List (List ℚ)) (n : ℕ)
    (hn : ∀ ch ∈ channels, ch.length = n) :
    (merge_channels channels).length = channels.length * n ∧
    (∀ c j, c < channels.length → j < n →
      (merge_channels channels).getD (j * channels.length + c) 0
        = (channels.getD c []).getD j 0) ∧
    merge_channels [[1, 2, 3], [10, 20, 30]] = [1, 10, 2, 20, 3, 30] := by
  by_cases hch : channels = []
  · subst hch
    refine ⟨by simp [merge_channels, zipRows, minLen], ?_, rfl⟩
    intro c j hc _
    exact absurd hc (by simp)
  · have hm : minLen channels = n := minLen_eq_of_const n channels hn hch
    refine ⟨?_, ?_, rfl⟩
    · rw [merge_channels_length, hm]
    · intro c j hc hj
      exact merge_channels_getD channels c j hc (hm ▸ hj)

/-- Witness for C5 at the concrete two-channel input of the spec. -/
theorem merge_channels_interleaves_witness :
    merge_channels [[1, 2, 3], [10, 20, 30]] = [1, 10, 2, 20, 3, 30] :=
  (merge_channels_interleaves [[1, 2, 3], [10, 20, 30]] 3 (by decide)).2.2

/-- C10: on channels of unequal lengths `merge_channels` does not fail: it
interleaves exactly the first `minLen channels` frames of every channel
(the `zip` truncation), discarding the rest. -/
theorem merge_channels_truncates (channels : List (List ℚ)) :
    (merge_channels channels).length = channels.length * minLen channels ∧
    ∀ c j, c < channels.length → j < minLen channels →
      (merge_channels channels).getD (j * channels.length + c) 0
        = (channels.getD c []).getD j 0 :=
  ⟨merge_channels_length channels, fun c j hc hj => merge_channels_getD channels c j hc hj⟩

/-- Witness for C10 on channels of unequal lengths `[1,2]` and `[10]`. -/
theorem merge_channels_truncates_witness :
    (merge_channels [[1, 2], [10]]).length = 2 * minLen [[1, 2], [10]] ∧
    (merge_channels [[1, 2], [10]]).getD (0 * 2 + 1) 0
      = (([[1, 2], [10]] : List (List ℚ)).getD 1 []).getD 0 0 :=
  ⟨(merge_channels_truncates [[1, 2], [10]]).1,
   (merge_channels_truncates [[1, 2], [10]]).2 1 0 (by decide) (by decide)⟩

/-- C4 counterexample: merging channels of unequal lengths (`[1,2]` and
`[10]`) does not fail with any error — it returns the sequence `[1, 10]`. -/
theorem merge_channels_mismatch_returns : merge_channels [[1, 2], [10]] = [1, 10] := rfl

/-- C4 amended: `merge_channels` never fails; on unequal-length channels it
behaves as if every channel were first cut to the length of the shortest
one. -/
theorem merge_channels_eq_on_truncation (channels : List (List ℚ)) :
    merge_channels channels
      = merge_channels (channels.map (fun ch => ch.take (minLen channels))) := by
  by_cases hch : channels = []
  · subst hch; rfl
  · have hm : minLen (channels.map (fun ch => ch.take (minLen channels))) = minLen channels := by
      apply minLen_eq_of_const
      · intro ch' hch'
        obtain ⟨ch, hmem, rfl⟩ := List.mem_map.mp hch'
        rw [List.length_take]
        exact min_eq_left (minLen_le channels ch hmem)
      · simp [hch]
    rw [merge_channels, merge_channels, zipRows, zipRows, hm]
    congr 1
    apply List.map_congr_left
    intro j hj
    rw [List.mem_range] at hj
    rw [List.map_map]
    apply List.map_congr_left
    intro ch hmem
    show ch.getD j 0 = (ch.take (minLen channels)).getD j 0
    rw [List.getD_eq_getElem?_getD, List.getD_eq_getElem?_getD, List.getElem?_take, if_pos hj]

/-! ### Properties of `npMax` and `normalize` -/

lemma le_foldl_max (l : List ℚ) : ∀ a : ℚ, a ≤ l.foldl max a := by
  induction l with
  | nil => intro a; exact le_refl a
  | cons x xs ih => intro a; exact le_trans (le_max_left a x) (ih (max a x))

lemma foldl_max_map_mul (k : ℚ) (hk : 0 ≤ k) (l : List ℚ) :
    ∀ a : ℚ, (l.map (fun x => k * x)).foldl max (k * a) = k * l.foldl max a := by
  induction l with
  | nil => intro a; rfl
  | cons x xs ih =>
      intro a
      rw [List.map_cons, List.foldl_cons, List.foldl_cons, ← mul_max_of_nonneg a x hk, ih]

lemma npMax_map_mul (k : ℚ) (hk : 0 ≤ k) (l : List ℚ) (p : ℚ) (h : npMax l = .ok p) :
    npMax (l.map (fun x => k * x)) = .ok (k * p) := by
  cases l with
  | nil => exact absurd h (by simp [npMax])
  | cons x xs =>
      have hp : xs.foldl max x = p := by
        have := h
        simp only [npMax, Except.ok.injEq] at this
        exact this
      rw [List.map_cons]
      show Except.ok ((xs.map (fun x => k * x)).foldl max (k * x)) = Except.ok (k * p)
      rw [foldl_max_map_mul k hk xs x, hp]

lemma npMax_abs_nonneg (l : List ℚ) (p : ℚ)
    (h : npMax (l.map (fun x => |x|)) = .ok p) : 0 ≤ p := by
  cases l with
  | nil => exact absurd h (by simp [npMax])
  | cons x xs =>
      have hp : (xs.map (fun x => |x|)).foldl max |x| = p := by
        have := h
        simp only [List.map_cons, npMax, Except.ok.injEq] at this
        exact this
      calc (0 : ℚ) ≤ |x| := abs_nonneg x
        _ ≤ (xs.map (fun x => |x|)).foldl max |x| := le_foldl_max _ _
        _ = p := hp

/-- C2 counterexample: normalizing the all-zero sequence `[0, 0, 0]` does
not fail — `normalize` returns a value (Python computes `1/0` with only a
runtime warning, yielding Inf/NaN samples, and raises nothing). -/
theorem normalize_zero_signal_no_error : (normalize [0, 0, 0] 1).isOk = true := rfl

/-- C2 amended: `normalize` raises no error on an all-zero signal (it
silently divides by zero); on a signal with nonzero peak `p` it returns the
samples scaled by `target / p`, whose peak absolute value is `|target|`. -/
theorem normalize_ok_peak (samples : List ℚ) (t p : ℚ)
    (hp : npMax (samples.map (fun x => |x|)) = Except.ok p) (hp0 : p ≠ 0) :
    normalize samples t = Except.ok (samples.map (fun x => (t / p) * x)) ∧
    npMax ((samples.map (fun x => (t / p) * x)).map (fun x => |x|)) = Except.ok |t| := by
  have hppos : 0 < p := lt_of_le_of_ne (npMax_abs_nonneg samples p hp) (Ne.symm hp0)
  constructor
  · rw [normalize, hp]
  · have habs : (samples.map (fun x => (t / p) * x)).map (fun x => |x|)
        = (samples.map (fun x => |x|)).map (fun x => |t / p| * x) := by
      rw [List.map_map, List.map_map]
      apply List.map_congr_left
      intro x _
      exact abs_mul (t / p) x
    rw [habs, npMax_map_mul |t / p| (abs_nonneg _) _ p hp]
    congr 1
    rw [abs_div, abs_of_pos hppos, div_mul_cancel₀ _ hp0]

/-- Witness for C2 (amended) at the one-sample signal `[1/2]` with target `2`. -/
theorem normalize_ok_peak_witness :
    normalize [1/2] 2 = Except.ok ([1/2].map (fun x => (2 / (1/2)) * x)) ∧
    npMax (([1/2].map (fun x => (2 / (1/2)) * x)).map (fun x => |x|)) = Except.ok |(2 : ℚ)| :=
  normalize_ok_peak [1/2] 2 (1/2) (by norm_num [npMax, abs_of_nonneg]) (by norm_num)

/-! ### Claim theorems about `generate_sample_time_points` -/

/-- C7 counterexample: the claim fails on the code in two ways.  At
`duration = 1/44100` the point count is `1`, so the single time point is
`0` and the last value is not the duration.  At `duration = 1/88200` the
point count `1/2` is fractional and `np.linspace` raises `TypeError`
instead of rounding. -/
theorem generate_sample_time_points_claim_false :
    generate_sample_time_points (1/44100) = Except.ok [0] ∧
    (0 : ℚ) ≠ 1/44100 ∧
    generate_sample_time_points (1/88200) = Except.error PyError.typeError := by
  refine ⟨?_, by norm_num, ?_⟩
  · rw [generate_sample_time_points,
      show (1/44100 : ℚ) * SAMPLING_FREQ = 1 by norm_num [SAMPLING_FREQ]]
    norm_num [linspace]
  · rw [generate_sample_time_points,
      show (1/88200 : ℚ) * SAMPLING_FREQ = (1 : ℤ) / (2 : ℤ) by push_cast; norm_num [SAMPLING_FREQ]]
    rw [if_neg]
    rw [Rat.den_div_intCast_eq_one_iff 1 2 (by norm_num)]
    decide

/-- C7 amended: for `duration > 0`, the point count is
`duration * SAMPLING_FREQ` unrounded — a `TypeError` when it is not an
integer `N`; when it is and `N ≥ 2`, the result is the `N`-point linspace
over `[0, duration]`: `N` strictly increasing values from `0` to
`duration` inclusive (for `N = 1` the single point is `0`, not the
duration). -/
theorem generate_sample_time_points_spec (d : ℚ) (N : ℕ)
    (hd : 0 < d) (hden : (d * SAMPLING_FREQ).den = 1)
    (hN : (d * SAMPLING_FREQ).num.toNat = N) (h2 : 2 ≤ N) :
    generate_sample_time_points d = Except.ok (linspace d N) ∧
    (linspace d N).length = N ∧
    List.Pairwise (· < ·) (linspace d N) ∧
    (linspace d N).head? = some 0 ∧
    (linspace d N).getLast? = some d := by
  have hpos : (0 : ℚ) < d * SAMPLING_FREQ := mul_pos hd (by norm_num [SAMPLING_FREQ])
  have hnum : 0 < (d * SAMPLING_FREQ).num := Rat.num_pos.mpr hpos
  have hN1 : N ≠ 1 := by omega
  have hlin : linspace d N = (List.range N).map (fun i : ℕ => d * (i : ℚ) / ((N : ℚ) - 1)) := by
    rw [linspace, if_neg hN1]
  have hden1 : (0 : ℚ) < (N : ℚ) - 1 := by
    have : (2 : ℚ) ≤ (N : ℚ) := by exact_mod_cast h2
    linarith
  refine ⟨?_, ?_, ?_, ?_, ?_⟩
  · rw [generate_sample_time_points, if_pos hden, if_neg (not_lt.mpr (le_of_lt hnum)), hN]
  · rw [hlin]; simp
  · rw [hlin]
    apply List.Pairwise.map _ _ (List.pairwise_lt_range N)
    intro a b hab
    apply (div_lt_div_iff_of_pos_right hden1).mpr
    exact mul_lt_mul_of_pos_left (by exact_mod_cast hab) hd
  · rw [hlin, List.head?_eq_getElem?, List.getElem?_map,
      List.getElem?_range (by omega : 0 < N)]
    simp
  · rw [hlin, List.getLast?_eq_getElem?, List.length_map, List.length_range,
      List.getElem?_map, List.getElem?_range (by omega : N - 1 < N)]
    have hcast : ((N - 1 : ℕ) : ℚ) = (N : ℚ) - 1 := by
      have h1 : 1 ≤ N := by omega
      push_cast [h1]
      ring
    simp only [Option.map_some']
    congr 1
    rw [hcast, mul_div_assoc, div_self (ne_of_gt hden1), mul_one]

/-- Witness for C7 (amended) at `duration = 1/22050`, where the point
count is exactly `2`. -/
theorem generate_sample_time_points_spec_witness :
    generate_sample_time_points (1/22050) = Except.ok (linspace (1/22050) 2) ∧
    (linspace (1/22050) 2).length = 2 ∧
    List.Pairwise (· < ·) (linspace (1/22050) 2) ∧
    (linspace (1/22050) 2).head? = some 0 ∧
    (linspace (1/22050) 2).getLast? = some (1/22050) :=
  generate_sample_time_points_spec (1/22050) 2 (by norm_num)
    (by rw [show (1/22050 : ℚ) * SAMPLING_FREQ = 2 by norm_num [SAMPLING_FREQ]]; rfl)
    (by rw [show (1/22050 : ℚ) * SAMPLING_FREQ = 2 by norm_num [SAMPLING_FREQ]]; rfl)
    (by norm_num)

/-! ### Claim theorem about `sine` -/

/-- C9: every sample of `sine freq amplitude duration` has magnitude at
most `|amplitude|`. -/
theorem sine_bounded (f A : ℝ) (d : ℚ) (_hf : 0 < f) (ys : List ℝ)
    (h : sine f A d = Except.ok ys) : ∀ y ∈ ys, |y| ≤ |A| := by
  rw [sine] at h
  cases hg : generate_sample_time_points d with
  | error e => rw [hg] at h; exact absurd h (by simp)
  | ok ts =>
      rw [hg] at h
      have hys : ts.map (fun t : ℚ => A * Real.sin (f * (2 * Real.pi) * (t : ℝ))) = ys := by
        simpa using h
      intro y hy
      rw [← hys] at hy
      obtain ⟨t, _, rfl⟩ := List.mem_map.mp hy
      rw [abs_mul]
      calc |A| * |Real.sin (f * (2 * Real.pi) * (t : ℝ))|
          ≤ |A| * 1 := mul_le_mul_of_nonneg_left (Real.abs_sin_le_one _) (abs_nonneg A)
        _ = |A| := mul_one _

/-- Witness for C9 at `f = 1`, `A = 1`, `duration = 1/44100` (a single
time point `t = 0`). -/
theorem sine_bounded_witness :
    |(1 : ℝ) * Real.sin (1 * (2 * Real.pi) * (((0 : ℚ) : ℝ)))| ≤ |(1 : ℝ)| := by
  have hgen : generate_sample_time_points (1/44100) = Except.ok [0] := by
    rw [generate_sample_time_points,
      show (1/44100 : ℚ) * SAMPLING_FREQ = 1 by norm_num [SAMPLING_FREQ]]
    norm_num [linspace]
  have hs : sine 1 1 (1/44100)
      = Except.ok [1 * Real.sin (1 * (2 * Real.pi) * (((0 : ℚ) : ℝ)))] := by
    rw [sine, hgen]
    rfl
  exact sine_bounded 1 1 (1/44100) one_pos _ hs _ (List.mem_singleton.mpr rfl)

/-! ### Claim theorems about the PCM codec and `separate_channels` -/

/-- C6 counterexample: the encoder does not produce the byte string
`7F FF 81 FF 00 00` stated by the spec. -/
theorem convert_to_bytes_spec_bytes_wrong :
    convert_to_bytes [1, -1, 0] ≠ [0x7F, 0xFF, 0x81, 0xFF, 0x00, 0x00] := by
  norm_num [convert_to_bytes, clip, truncToZero, toInt16, int16ToBytesLE, MAX_INT_SAMPLE_VALUE,
    SAMPLE_WIDTH]
  decide

/-- C6 amended: `encode([1.0, -1.0, 0.0])` is the little-endian layout of
the int16 values `[32767, -32767, 0]`, namely `FF 7F 01 80 00 00`. -/
theorem convert_to_bytes_concrete :
    convert_to_bytes [1, -1, 0] = [0xFF, 0x7F, 0x01, 0x80, 0x00, 0x00] := by
  norm_num [convert_to_bytes, clip, truncToZero, toInt16, int16ToBytesLE, MAX_INT_SAMPLE_VALUE,
    SAMPLE_WIDTH]
  decide

/-- C1: evaluation of the code at the failing input `[0.0]`.  Decoding the
encoding of `[0.0]` yields `None` (the decoder's body computes the sample
array — second conjunct — but never returns it). -/
theorem convert_roundtrip_returns_none :
    convert_to_samples (convert_to_bytes [0]) = Except.ok none ∧
    convert_to_samples_value (convert_to_bytes [0]) = Except.ok [0] := by
  refine ⟨rfl, ?_⟩
  norm_num [convert_to_bytes, clip, truncToZero, toInt16, int16ToBytesLE, MAX_INT_SAMPLE_VALUE,
    SAMPLE_WIDTH, convert_to_samples_value, bytesToInt16s]

/-- C8: evaluation of the code at the failing input `[0x00, 0x00]`.  On an
odd-length buffer the decoder raises (`ValueError` from `np.frombuffer`),
as the claim says; but on an even-length buffer it returns `None` instead
of the decoded samples (which its body does compute — third conjunct). -/
theorem convert_to_samples_missing_return :
    convert_to_samples [0] = Except.error PyError.valueError ∧
    convert_to_samples [0, 0] = Except.ok none ∧
    convert_to_samples_value [0, 0] = Except.ok [0] := by
  refine ⟨rfl, rfl, ?_⟩
  norm_num [convert_to_samples_value, bytesToInt16s, MAX_INT_SAMPLE_VALUE, SAMPLE_WIDTH]

/-! ### Supporting facts: the quantization round trip of the PCM codec

The decoder's body (modelled by `convert_to_samples_value`) does invert the
encoder within one quantization step, as the spec's round-trip property
asks — the defect recorded in C1 and C8 is only that this computed value is
never returned. -/

lemma abs_truncToZero_sub_le (q : ℚ) : |(truncToZero q : ℚ) - q| ≤ 1 := by
  rw [truncToZero]
  by_cases hq : 0 ≤ q
  · rw [if_pos hq, abs_le]
    constructor
    · linarith [Int.sub_one_lt_floor q]
    · linarith [Int.floor_le q]
  · rw [if_neg hq]
    push_cast
    rw [abs_le]
    constructor
    · linarith [Int.floor_le (-q)]
    · linarith [Int.sub_one_lt_floor (-q)]

lemma abs_truncToZero_le (q : ℚ) (M : ℤ) (h : |q| ≤ (M : ℚ)) : |truncToZero q| ≤ M := by
  rw [truncToZero]
  by_cases hq : 0 ≤ q
  · rw [if_pos hq, abs_of_nonneg (Int.floor_nonneg.mpr hq)]
    calc ⌊q⌋ ≤ ⌊(M : ℚ)⌋ := Int.floor_le_floor (le_trans (le_abs_self q) h)
      _ = M := Int.floor_intCast M
  · rw [if_neg hq, abs_neg, abs_of_nonneg (Int.floor_nonneg.mpr (by linarith))]
    calc ⌊-q⌋ ≤ ⌊(M : ℚ)⌋ := Int.floor_le_floor (le_trans (neg_le_abs q) h)
      _ = M := Int.floor_intCast M

lemma toInt16_eq_self (i : ℤ) (h1 : -2 ^ 15 ≤ i) (h2 : i < 2 ^ 15) : toInt16 i = i := by
  rw [toInt16, Int.emod_eq_of_lt (by linarith) (by linarith)]
  ring

lemma bytesToInt16s_pair (i : ℤ) (h1 : -2 ^ 15 ≤ i) (h2 : i < 2 ^ 15) :
    bytesToInt16s (int16ToBytesLE i) = [i] := by
  rw [int16ToBytesLE]
  simp only [bytesToInt16s]
  have hmod : ∀ u : ℕ, u < 2 ^ 16 →
      (u % 256) % 256 + 256 * ((u / 256) % 256) = u := by
    intro u hu
    have hdiv : u / 256 < 256 := Nat.div_lt_of_lt_mul hu
    rw [Nat.mod_mod_of_dvd _ (dvd_refl 256), Nat.mod_eq_of_lt hdiv, Nat.mod_add_div u 256]
  by_cases hi : 0 ≤ i
  · have hemod : i % 2 ^ 16 = i := Int.emod_eq_of_lt hi (by linarith)
    have hu : (i % 2 ^ 16).toNat = i.toNat := by rw [hemod]
    have hcast : (i.toNat : ℤ) = i := Int.toNat_of_nonneg hi
    have hultN : i.toNat < 2 ^ 16 := by omega
    rw [hu, hmod i.toNat hultN, if_pos (by omega), hcast]
  · have hemod : i % 2 ^ 16 = i + 2 ^ 16 := by
      have h := Int.add_mul_emod_self_left (a := i) (b := 2 ^ 16) (c := 1)
      rw [mul_one] at h
      rw [← h, Int.emod_eq_of_lt (by linarith) (by linarith)]
    have hu : (i % 2 ^ 16).toNat = (i + 2 ^ 16).toNat := by rw [hemod]
    have hcast : ((i + 2 ^ 16).toNat : ℤ) = i + 2 ^ 16 := Int.toNat_of_nonneg (by linarith)
    have hultN : (i + 2 ^ 16).toNat < 2 ^ 16 := by omega
    have hge : ¬ (i + 2 ^ 16).toNat < 2 ^ 15 := by omega
    rw [hu, hmod _ hultN, if_neg hge, hcast]
    norm_num

lemma clip_eq_self (x : ℚ) (h1 : -1 ≤ x) (h2 : x ≤ 1) : clip x (-1) 1 = x := by
  rw [clip, max_eq_left h1, min_eq_left h2]

/-- The decoded value computed (but not returned) by `convert_to_samples`
recovers an encoded in-range sample within one quantization step
`1 / MAX_INT_SAMPLE_VALUE`. -/
theorem convert_to_samples_value_roundtrip (x : ℚ) (hx1 : -1 ≤ x) (hx2 : x ≤ 1) :
    convert_to_samples_value (convert_to_bytes [x])
      = Except.ok [(truncToZero (x * (MAX_INT_SAMPLE_VALUE : ℚ)) : ℚ) / (MAX_INT_SAMPLE_VALUE : ℚ)] ∧
    |(truncToZero (x * (MAX_INT_SAMPLE_VALUE : ℚ)) : ℚ) / (MAX_INT_SAMPLE_VALUE : ℚ) - x|
      ≤ 1 / (MAX_INT_SAMPLE_VALUE : ℚ) := by
  have hM : (MAX_INT_SAMPLE_VALUE : ℚ) = 32767 := by
    norm_num [MAX_INT_SAMPLE_VALUE, SAMPLE_WIDTH]
  have habsq : |x * (MAX_INT_SAMPLE_VALUE : ℚ)| ≤ ((32767 : ℤ) : ℚ) := by
    rw [hM, abs_mul]
    calc |x| * |(32767 : ℚ)| ≤ 1 * |(32767 : ℚ)| := by
          apply mul_le_mul_of_nonneg_right (abs_le.mpr ⟨hx1, hx2⟩) (abs_nonneg _)
      _ = ((32767 : ℤ) : ℚ) := by norm_num
  have hibound : |truncToZero (x * (MAX_INT_SAMPLE_VALUE : ℚ))| ≤ 32767 :=
    abs_truncToZero_le _ 32767 habsq
  rw [abs_le] at hibound
  have h15 : -2 ^ 15 ≤ truncToZero (x * (MAX_INT_SAMPLE_VALUE : ℚ)) := by linarith
  have h15' : truncToZero (x * (MAX_INT_SAMPLE_VALUE : ℚ)) < 2 ^ 15 := by linarith
  have henc : convert_to_bytes [x]
      = int16ToBytesLE (truncToZero (x * (MAX_INT_SAMPLE_VALUE : ℚ))) := by
    rw [convert_to_bytes]
    simp only [List.map_cons, List.map_nil]
    rw [clip_eq_self x hx1 hx2, toInt16_eq_self _ h15 h15']
    simp [int16ToBytesLE]
  constructor
  · rw [henc, convert_to_samples_value, if_pos (by simp [int16ToBytesLE]),
      bytesToInt16s_pair _ h15 h15']
    rfl
  · have hMpos : (0 : ℚ) < (MAX_INT_SAMPLE_VALUE : ℚ) := by rw [hM]; norm_num
    have hsplit : (truncToZero (x * (MAX_INT_SAMPLE_VALUE : ℚ)) : ℚ) / (MAX_INT_SAMPLE_VALUE : ℚ) - x
        = ((truncToZero (x * (MAX_INT_SAMPLE_VALUE : ℚ)) : ℚ) - x * (MAX_INT_SAMPLE_VALUE : ℚ))
            / (MAX_INT_SAMPLE_VALUE : ℚ) := by
      field_simp
      ring
    rw [hsplit, abs_div, abs_of_pos hMpos]
    gcongr
    exact abs_truncToZero_sub_le _

/-- C3: evaluation of the code at the failing input.  Separating the merge
of `[[1,2,3],[10,20,30]]` raises `TypeError` (`np.fromiter` cannot coerce
the length-3 slice arrays to float scalars), while the slice expression in
the source's own comment would return the original channels. -/
theorem separate_channels_raises :
    separate_channels (merge_channels [[1, 2, 3], [10, 20, 30]]) 2
      = Except.error PyError.typeError ∧
    separate_channels_commented (merge_channels [[1, 2, 3], [10, 20, 30]]) 2
      = [[1, 2, 3], [10, 20, 30]] :=
  ⟨rfl, rfl⟩

end Audio
